import Mathlib

/-!
Shallow embedding of the extractive summarization engine in
`src/backend/app/services/summarization.py`, together with theorems checking
the natural-language specification against it.

Modelling conventions:
* Python strings are Lean `String`s (ASCII inputs).  `str.strip()`,
  `str.lower()` and `sep.join(...)` are embedded as the character-list
  functions `trimStr`, `lowerStr` and `intercalateStr` so that every
  definition evaluates inside the kernel; they agree with the library
  `String.trim`, `String.toLower` and `String.intercalate`.
* Python floats are modelled as exact rationals (`ℚ`); the positional boost
  constants 1.2 and 1.1 become `6/5` and `11/10`.
* Python ints are `Int` where negative values can reach the code
  (`num_sentences` flows into a slice `[:n]`, whose Python semantics is
  `pyTake` below).
* The character scanners carry an explicit fuel argument (initialised with
  the input length, which is enough for every run since each step consumes
  at least one character) only to make the recursion structural.
* `re.findall(r"\b[a-z]+\b", s.lower())` is the list of maximal runs of
  `a`-`z` in the lowered string whose neighbouring characters (if any) are
  not word characters (`[A-Za-z0-9_]`).
* `re.search(pat, s, re.IGNORECASE)` for the fixed `ACTION_PATTERNS` is
  modelled as a word-boundary keyword search on the lowered string: each
  pattern is a list of literal alternatives (expanding `[s]?`, `(?:ed)?`,
  `[\s-]?` with the space character, and the day-of-week alternation); the
  common suffix `(.*?)(?:\.|$)` always matches on newline-free text and the
  optional `[:\s]*` parts always match empty, so they impose no constraint.
* `sorted(xs, key=k, reverse=...)` is a stable sort, embedded as a stable
  insertion sort (`sortStable`).
-/

/-- A scored sentence: the `(score, index, sentence)` triple produced by
`_score_sentences`. -/
structure Scored where
  score : ℚ
  idx : ℕ
  text : String

/-- The result dict of `summarize_transcript`. -/
structure SummaryResult where
  summary : String
  key_points : List String
  action_items : List String
deriving DecidableEq

/-- The `STOP_WORDS` set from the source, as a list of words. -/
def STOP_WORDS : List String :=
  ["i", "me", "my", "myself", "we", "our", "ours", "ourselves", "you", "your",
   "yours", "yourself", "yourselves", "he", "him", "his", "himself", "she",
   "her", "hers", "herself", "it", "its", "itself", "they", "them", "their",
   "theirs", "themselves", "what", "which", "who", "whom", "this", "that",
   "these", "those", "am", "is", "are", "was", "were", "be", "been", "being",
   "have", "has", "had", "having", "do", "does", "did", "doing", "a", "an",
   "the", "and", "but", "if", "or", "because", "as", "until", "while", "of",
   "at", "by", "for", "with", "about", "against", "between", "through",
   "during", "before", "after", "above", "below", "to", "from", "up", "down",
   "in", "out", "on", "off", "over", "under", "again", "further", "then",
   "once", "here", "there", "when", "where", "why", "how", "all", "both",
   "each", "few", "more", "most", "other", "some", "such", "no", "nor", "not",
   "only", "own", "same", "so", "than", "too", "very", "s", "t", "can",
   "will", "just", "don", "should", "now", "d", "ll", "m", "o", "re", "ve",
   "y", "ain", "aren", "couldn", "didn", "doesn", "hadn", "hasn", "haven",
   "isn", "ma", "mightn", "mustn", "needn", "shan", "shouldn", "wasn",
   "weren", "won", "wouldn", "also", "would", "could", "may", "might",
   "shall", "well", "really", "actually", "going", "got", "let", "like",
   "thing", "things", "know", "think", "go", "get", "make", "right", "um",
   "uh", "yeah", "okay"]

/-- Python `str.strip()`: remove leading and trailing whitespace. -/
def trimStr (s : String) : String :=
  String.mk
    (((s.data.dropWhile Char.isWhitespace).reverse.dropWhile
        Char.isWhitespace).reverse)

/-- Python `str.lower()` (ASCII). -/
def lowerStr (s : String) : String := String.mk (s.data.map Char.toLower)

/-- Python `sep.join(l)`. -/
def intercalateStr (sep : String) : List String → String
  | [] => ""
  | [s] => s
  | s :: rest => s ++ sep ++ intercalateStr sep rest

/-- A lowercase ASCII letter, i.e. a character matched by `[a-z]`. -/
def isLowerAZ (c : Char) : Bool := 'a' ≤ c && c ≤ 'z'

/-- A regex word character `\w` = `[A-Za-z0-9_]` (ASCII). -/
def isWordChar (c : Char) : Bool := c.isAlphanum || c == '_'

/-- `true` iff the list does not start with a word character, i.e. a `\b`
word boundary holds between a word character and this position. -/
def boundaryOk : List Char → Bool
  | [] => true
  | d :: _ => !isWordChar d

/-- Scanner for `re.findall(r"\b[a-z]+\b", ·)`: walks the character list,
carrying whether the previous character was a word character.  A maximal
`[a-z]` run is a match iff the characters flanking it (if any) are not word
characters.  When the head `c` is a lowercase letter, the maximal run
starting at `c` is `c :: cs.takeWhile isLowerAZ` and the remainder is
`cs.dropWhile isLowerAZ`. -/
def findWordsAux : ℕ → List Char → Bool → List (List Char)
  | 0, _, _ => []
  | _ + 1, [], _ => []
  | fuel + 1, c :: cs, prevWord =>
    if isLowerAZ c && !prevWord then
      let run := c :: cs.takeWhile isLowerAZ
      let rest := cs.dropWhile isLowerAZ
      if boundaryOk rest then run :: findWordsAux fuel rest true
      else findWordsAux fuel rest true
    else
      findWordsAux fuel cs (isWordChar c)

/-- `re.findall(r"\b[a-z]+\b", s.lower())`. -/
def findWords (s : String) : List String :=
  (findWordsAux (lowerStr s).data.length (lowerStr s).data false).map
    String.mk

/-- A character ending a sentence: `.`, `!` or `?`. -/
def isSentEnd (c : Char) : Bool := c == '.' || c == '!' || c == '?'

/-- Scanner for `re.split(r"(?<=[.!?])\s+", ·)`: a split point is a maximal
whitespace run whose immediately preceding character is `.`, `!` or `?`.
`acc` holds the current fragment reversed. -/
def splitAux : ℕ → List Char → List Char → List (List Char)
  | 0, _, acc => [acc.reverse]
  | _ + 1, [], acc => [acc.reverse]
  | fuel + 1, c :: cs, acc =>
    if c.isWhitespace && (match acc.head? with
                          | some p => isSentEnd p
                          | none => false) then
      acc.reverse :: splitAux fuel (cs.dropWhile Char.isWhitespace) []
    else
      splitAux fuel cs (c :: acc)

/-- `_split_sentences`: split `text.strip()` on whitespace following
`.`/`!`/`?`, strip each fragment, keep those of length > 10. -/
def split_sentences (text : String) : List String :=
  ((splitAux (trimStr text).data.length (trimStr text).data []).map
      (fun l => trimStr (String.mk l))).filter (fun s => 10 < s.length)

/-- Python `s.rstrip(".")`: remove every trailing `.`. -/
def rstripDot (s : String) : String :=
  String.mk ((s.data.reverse.dropWhile (fun c => c == '.')).reverse)

/-- Python slice `l[:n]` for an `int` `n`: for `n ≥ 0` take the first `n`
elements; for `n < 0` stop `|n|` elements before the end (clamped at 0). -/
def pyTake {α : Type} (n : Int) (l : List α) : List α :=
  if 0 ≤ n then l.take n.toNat else l.take ((l.length : Int) + n).toNat

/-- The segmentation loop of `_map_reduce_summarize`
(`for i in range(0, len(sentences), 20): sentences[i:i+20]`), with fuel. -/
def chunk20F : ℕ → List String → List (List String)
  | 0, _ => []
  | _ + 1, [] => []
  | fuel + 1, s :: rest =>
    (s :: rest).take 20 :: chunk20F fuel ((s :: rest).drop 20)

/-- The segmentation of `_map_reduce_summarize`: contiguous 20-sentence
slices. -/
def chunk20 (l : List String) : List (List String) := chunk20F l.length l

/-- `chunk20F` ignores the fuel as long as it is at least the input
length. -/
lemma chunk20F_congr :
    ∀ (f g : ℕ) (l : List String), l.length ≤ f → l.length ≤ g →
      chunk20F f l = chunk20F g l := by
  intro f
  induction f with
  | zero =>
    intro g l hf _
    have : l = [] := List.length_eq_zero.mp (Nat.le_zero.mp hf)
    subst this
    cases g <;> rfl
  | succ f ih =>
    intro g l hf hg
    cases l with
    | nil => cases g <;> rfl
    | cons s rest =>
      cases g with
      | zero => simp at hg
      | succ g =>
        simp only [chunk20F]
        congr 1
        apply ih <;>
          simp only [List.length_drop, List.length_cons] at * <;> omega

/-- One unfolding step of `chunk20` on a nonempty list. -/
lemma chunk20_cons (s : String) (rest : List String) :
    chunk20 (s :: rest) =
      (s :: rest).take 20 :: chunk20 ((s :: rest).drop 20) := by
  show chunk20F (s :: rest).length (s :: rest) = _
  simp only [List.length_cons, chunk20F]
  congr 1
  apply chunk20F_congr
  · simp only [List.length_drop, List.length_cons]
    omega
  · exact Nat.le_refl _

/-- The retained-word filter: `w not in STOP_WORDS and len(w) > 2`. -/
def keepWord (w : String) : Bool := !STOP_WORDS.contains w && 2 < w.length

/-- The retained words of one sentence (the comprehension feeding
`all_words.extend`). -/
def retainedWords (s : String) : List String := (findWords s).filter keepWord

/-- `all_words`: the concatenation of the retained words of every sentence. -/
def allRetainedWords (sentences : List String) : List String :=
  (sentences.map retainedWords).flatten

/-- `max(word_freq.values())`.  `word_freq = Counter(all_words)`, so the
values are the multiplicities of the distinct words of `all_words`; taking
the maximum over `all_words` itself (with repetitions) gives the same
number. -/
def maxCount (tbl : List String) : ℕ :=
  (tbl.map (fun w => tbl.count w)).foldr max 0

/-- `word_freq.get(w, 0)` after the normalization loop
`word_freq[word] /= max_freq`: the word's count divided by the maximum
count if the word is in the table, else 0. -/
def freqLookup (tbl : List String) (mf : ℕ) (w : String) : ℚ :=
  if tbl.contains w then (tbl.count w : ℚ) / (mf : ℚ) else 0

/-- The per-sentence score before the positional boost (lines 77-82 of the
source): 0.0 when the sentence has no `[a-z]+` words, otherwise the sum of
the table lookups over ALL its words divided by the number of ALL its
words. -/
def scoreOne (tbl : List String) (mf : ℕ) (s : String) : ℚ :=
  let ws := findWords s
  if ws = [] then 0
  else ((ws.map (freqLookup tbl mf)).sum) / (ws.length : ℚ)

/-- The positional boost: `*1.2` for the first sentence (`i == 0`), `elif
i == len - 1` then `*1.1`, else unchanged; 1.2 and 1.1 as exact rationals. -/
def boostFactor (i len : ℕ) : ℚ :=
  if i = 0 then 6/5 else if i = len - 1 then 11/10 else 1

/-- The scoring loop `for i, sentence in enumerate(sentences)` with the
index carried explicitly. -/
def scoreLoop (tbl : List String) (mf : ℕ) (len : ℕ) :
    ℕ → List String → List Scored
  | _, [] => []
  | i, s :: rest =>
    ⟨scoreOne tbl mf s * boostFactor i len, i, s⟩ ::
      scoreLoop tbl mf len (i + 1) rest

/-- The early-return list `[(0.0, i, s) for i, s in enumerate(sentences)]`
used when no word survives filtering. -/
def zeroLoop : ℕ → List String → List Scored
  | _, [] => []
  | i, s :: rest => ⟨0, i, s⟩ :: zeroLoop (i + 1) rest

/-- `_score_sentences`. -/
def score_sentences (sentences : List String) : List Scored :=
  let tbl := allRetainedWords sentences
  if tbl = [] then zeroLoop 0 sentences
  else scoreLoop tbl (maxCount tbl) sentences.length 0 sentences

/-- Stable insertion step: skip every element that strictly precedes `a`
under `lt`, then place `a`; ties and incomparable elements keep the earlier
element (here `a`, inserted from a `foldr`) first. -/
def insStable (lt : Scored → Scored → Bool) (a : Scored) :
    List Scored → List Scored
  | [] => [a]
  | b :: l => if lt b a then b :: insStable lt a l else a :: b :: l

/-- A stable sort (Python's `sorted` is stable): `lt b a` means `b` must
come strictly before `a`. -/
def sortStable (lt : Scored → Scored → Bool) (l : List Scored) : List Scored :=
  l.foldr (insStable lt) []

/-- `sorted(scored, key=lambda x: x[0], reverse=True)`: `b` strictly
precedes `a` iff `b`'s score is greater. -/
def ltScore (b a : Scored) : Bool := decide (a.score < b.score)

/-- `sorted(top, key=lambda x: x[1])`: `b` strictly precedes `a` iff `b`'s
index is smaller. -/
def ltIdx (b a : Scored) : Bool := decide (b.idx < a.idx)

/-- The specification's selection order: score descending with ties broken
by lower index. -/
def ltLex (b a : Scored) : Bool :=
  decide (a.score < b.score) ||
    (decide (a.score = b.score) && decide (b.idx < a.idx))

/-- `extract_summary`. -/
def extract_summary (text : String) (num_sentences : Int) : String :=
  if trimStr text = "" then ""
  else
    let sentences := split_sentences text
    if (sentences.length : Int) ≤ num_sentences then trimStr text
    else
      let scored := score_sentences sentences
      let top := pyTake num_sentences (sortStable ltScore scored)
      let topInOrder := sortStable ltIdx top
      intercalateStr " " (topInOrder.map Scored.text)

/-- `extract_key_points`. -/
def extract_key_points (text : String) (max_points : Int) : List String :=
  if trimStr text = "" then []
  else
    let sentences := split_sentences text
    if sentences = [] then []
    else
      let scored := score_sentences sentences
      let top := pyTake max_points (sortStable ltScore scored)
      let topInOrder := sortStable ltIdx top
      (topInOrder.map Scored.text).filterMap (fun s =>
        let point := rstripDot s
        if point ≠ "" ∧ 15 < point.length then some point else none)

/-- `ACTION_PATTERNS`, each regex replaced by the list of its literal
keyword alternatives (see the header).  Order is the source order. -/
def ACTION_PATTERNS : List (List String) :=
  [["action item", "action items"],
   ["need to", "needs to"],
   ["should"],
   ["will"],
   ["must"],
   ["todo"],
   ["todo", "to do", "to-do"],
   ["follow up", "follow-up", "followup"],
   ["deadline"],
   ["by monday", "by tuesday", "by wednesday", "by thursday", "by friday",
    "by saturday", "by sunday", "by tomorrow", "by next week", "by end of"],
   ["assign", "assigned"],
   ["schedule"],
   ["make sure"]]

/-- Word-boundary keyword search: `kw` occurs in the list with no word
character immediately before or after the occurrence.  `prev` is the
character preceding the current position (`none` at the start). -/
def kwSearch (kw : List Char) : Option Char → List Char → Bool
  | _, [] => false
  | prev, c :: cs =>
    ((match prev with | none => true | some p => !isWordChar p)
      && kw.isPrefixOf (c :: cs)
      && boundaryOk ((c :: cs).drop kw.length))
    || kwSearch kw (some c) cs

/-- `re.search(pattern, sentence, re.IGNORECASE) is not None` for one
pattern (a list of alternatives). -/
def patMatches (alts : List String) (s : String) : Bool :=
  alts.any (fun kw => kwSearch kw.data none (lowerStr s).data)

/-- The sentence loop of `extract_action_items`: the inner
`for pattern in ACTION_PATTERNS: ... break` tries patterns in order and
stops at the first match, which `List.find?` embeds exactly. -/
def actionLoop (seen : List String) : List String → List String
  | [] => []
  | s :: rest =>
    match ACTION_PATTERNS.find? (fun p => patMatches p s) with
    | some _ =>
      let item := rstripDot (trimStr s)
      let il := lowerStr item
      if !seen.contains il && 15 < item.length then
        item :: actionLoop (il :: seen) rest
      else actionLoop seen rest
    | none => actionLoop seen rest

/-- `extract_action_items`. -/
def extract_action_items (text : String) : List String :=
  if trimStr text = "" then [] else actionLoop [] (split_sentences text)

/-- The `segments` list of `_map_reduce_summarize`. -/
def segmentsOf (sentences : List String) : List String :=
  (chunk20 sentences).map (intercalateStr " ")

/-- The `segment_summaries` list of `_map_reduce_summarize`. -/
def segmentSummaries (sentences : List String) : List String :=
  (segmentsOf sentences).map (fun seg => extract_summary seg 3)

/-- The `combined` text of `_map_reduce_summarize`. -/
def combinedOf (sentences : List String) : String :=
  intercalateStr " " (segmentSummaries sentences)

/-- `_map_reduce_summarize`. -/
def map_reduce_summarize (text : String) (sentences : List String)
    (num_sentences : Int) : SummaryResult :=
  { summary := extract_summary (combinedOf sentences) num_sentences,
    key_points := extract_key_points (combinedOf sentences) 7,
    action_items := extract_action_items text }

/-- `summarize_transcript`. -/
def summarize_transcript (text : String) (num_sentences : Int) :
    SummaryResult :=
  if trimStr text = "" then
    { summary := "", key_points := [], action_items := [] }
  else
    let sentences := split_sentences text
    if 50 < sentences.length then
      map_reduce_summarize text sentences num_sentences
    else
      { summary := extract_summary text num_sentences,
        key_points := extract_key_points text 7,
        action_items := extract_action_items text }

/-- The specification's normalized frequency of a word: its count among the
retained words of the batch divided by the maximum count. -/
def spec_norm_freq (sentences : List String) (w : String) : ℚ :=
  ((allRetainedWords sentences).count w : ℚ) /
    (maxCount (allRetainedWords sentences) : ℚ)

/-- The specification's per-sentence score (before positional boost): sum of
the normalized frequencies of the sentence's retained words divided by the
count of its retained words; 0 if no word is retained. -/
def spec_sentence_score (sentences : List String) (s : String) : ℚ :=
  let r := retainedWords s
  if r = [] then 0
  else (r.map (spec_norm_freq sentences)).sum / (r.length : ℚ)

/-- Case-insensitive deduplication keeping the first occurrence, skipping
anything whose lowercase form is already in `seen` (the specification's
description of the action-item dedup). -/
def dedupCI (seen : List String) : List String → List String
  | [] => []
  | c :: rest =>
    if seen.contains (lowerStr c) then dedupCI seen rest
    else c :: dedupCI (lowerStr c :: seen) rest

/-- Division as Python performs it: `a / b` raises `ZeroDivisionError` when
`b = 0`, modelled by `none`. -/
def cdiv (a b : ℚ) : Option ℚ := if b = 0 then none else some (a / b)

/-- `max(values)` as Python performs it: raises on an empty sequence. -/
def cmax (l : List ℕ) : Option ℕ :=
  if l = [] then none else some (l.foldr max 0)

/-- `scoreOne` with the division checked as Python would check it. -/
def scoreOneChecked (tbl : List String) (mf : ℕ) (s : String) : Option ℚ :=
  let ws := findWords s
  if ws = [] then some 0
  else cdiv ((ws.map (freqLookup tbl mf)).sum) (ws.length : ℚ)

/-- The scoring loop with checked divisions. -/
def scoreLoopChecked (tbl : List String) (mf : ℕ) (len : ℕ) :
    ℕ → List String → Option (List Scored)
  | _, [] => some []
  | i, s :: rest => do
    let base ← scoreOneChecked tbl mf s
    let tail ← scoreLoopChecked tbl mf len (i + 1) rest
    some (⟨base * boostFactor i len, i, s⟩ :: tail)

/-- `_score_sentences` with every partial Python operation made explicit:
`max(word_freq.values())` fails on an empty table, and the normalization
loop `word_freq[word] /= max_freq` fails iff `max_freq = 0` (every division
in that loop has divisor `max_freq`). -/
def score_sentencesChecked (sentences : List String) :
    Option (List Scored) :=
  let tbl := allRetainedWords sentences
  if tbl = [] then some (zeroLoop 0 sentences)
  else
    match cmax (tbl.map (fun w => tbl.count w)) with
    | none => none
    | some mf =>
      if (mf : ℚ) = 0 then none
      else scoreLoopChecked tbl mf sentences.length 0 sentences

/-- Concrete sentence batch for the scoring counterexample. -/
def exList1 : List String := ["dog cat bird", "the dog", "bird cat dog"]

/-- Concrete text whose splitter drops the short fragment `Hi.`. -/
def exText2 : String := "Hi. This is a longer sentence."

/-- Concrete one-sentence text with enough non-stop words to score. -/
def exText3 : String := "This is a longer sentence with many interesting words."

/-- Concrete two-sentence text for selection. -/
def smallText : String :=
  "The dog chased the ball quickly. The cat slept on the warm mat."

/-- Concrete sentence ending in an ellipsis. -/
def exText5 : String := "This is quite an important announcement..."

/-- The specification's own action-item scenario. -/
def exText5b : String :=
  "We need to finish the report by Friday. The weather is nice today."

/-- A transcript whose splitter yields 51 sentences. -/
def bigText : String := intercalateStr " " (List.replicate 51 "Abcdefghijk.")

set_option maxRecDepth 200000

/-- An empty trimmed text yields no sentences. -/
lemma split_of_trim_empty (text : String) (h : trimStr text = "") :
    split_sentences text = [] := by
  unfold split_sentences
  rw [h]
  rfl

/-- A text with at least one surviving sentence has nonempty trimmed form. -/
lemma trim_ne_of_split_ne (text : String) (h : split_sentences text ≠ []) :
    trimStr text ≠ "" :=
  fun h' => h (split_of_trim_empty text h')

/-- `l[:0] = []`. -/
lemma pyTake_zero (l : List Scored) : pyTake (0 : Int) l = [] := by
  simp [pyTake]

/-- Every word in the frequency table passed the retained-word filter. -/
lemma keep_of_mem_allRetainedWords {sentences : List String} {w : String}
    (h : w ∈ allRetainedWords sentences) : keepWord w = true := by
  unfold allRetainedWords at h
  rcases List.mem_flatten.mp h with ⟨l, hl, hwl⟩
  rcases List.mem_map.mp hl with ⟨s, _, rfl⟩
  exact List.of_mem_filter hwl

/-- The normalized-table lookup equals the specification's normalized
frequency on retained words and 0 on filtered-out words. -/
lemma freqLookup_spec (sentences : List String) (w : String) :
    freqLookup (allRetainedWords sentences)
        (maxCount (allRetainedWords sentences)) w =
      if keepWord w then spec_norm_freq sentences w else 0 := by
  unfold freqLookup spec_norm_freq
  by_cases hc : w ∈ allRetainedWords sentences
  · rw [if_pos (List.elem_eq_true_of_mem hc),
      if_pos (keep_of_mem_allRetainedWords hc)]
  · rw [if_neg (fun hcon => hc (List.mem_of_elem_eq_true hcon))]
    have hz : (allRetainedWords sentences).count w = 0 :=
      List.count_eq_zero.mpr hc
    rw [hz]
    by_cases hk : keepWord w <;> simp [hk]

/-- Key step for the corrected scoring formula: summing the table lookups
over all words of a sentence equals summing the specification's normalized
frequencies over the sentence's retained words only. -/
lemma sum_lookup_eq_sum_retained (sentences : List String)
    (ws : List String) :
    (ws.map (freqLookup (allRetainedWords sentences)
        (maxCount (allRetainedWords sentences)))).sum =
      ((ws.filter keepWord).map (spec_norm_freq sentences)).sum := by
  induction ws with
  | nil => rfl
  | cons w ws ih =>
    rw [List.map_cons, List.sum_cons, freqLookup_spec, List.filter_cons]
    by_cases hk : keepWord w
    · rw [if_pos hk, if_pos hk, List.map_cons, List.sum_cons, ih]
    · rw [if_neg hk, if_neg hk, ih, zero_add]

/-- The code's pre-boost score of the concrete middle sentence: the lookup
sum (0 for `the`, 1 for `dog`) divided by the count 2 of ALL its words. -/
lemma scoreOne_thedog :
    scoreOne ["dog", "cat", "bird", "dog", "bird", "cat", "dog"] 3 "the dog"
      = 1/2 := by
  have hw : findWords "the dog" = ["the", "dog"] := by decide
  have hcthe : (["dog", "cat", "bird", "dog", "bird", "cat",
      "dog"] : List String).contains "the" = false := by decide
  have hcdog : (["dog", "cat", "bird", "dog", "bird", "cat",
      "dog"] : List String).contains "dog" = true := by decide
  have hcnt : (["dog", "cat", "bird", "dog", "bird", "cat",
      "dog"] : List String).count "dog" = 3 := by decide
  simp only [scoreOne, hw, freqLookup, hcthe, hcdog, hcnt, List.map_cons,
    List.map_nil]
  rw [if_neg (by decide : ¬ (["the", "dog"] : List String) = [])]
  norm_num

/-- The code's score of the middle (unboosted) sentence of the concrete
batch is 1/2. -/
lemma score_exList1_mid :
    ((score_sentences exList1).map Scored.score).tail.head?
      = some (1/2 : ℚ) := by
  have htbl : allRetainedWords exList1 =
      ["dog", "cat", "bird", "dog", "bird", "cat", "dog"] := by decide
  have hmax : maxCount ["dog", "cat", "bird", "dog", "bird", "cat", "dog"]
      = 3 := by decide
  simp only [score_sentences, htbl, hmax]
  rw [if_neg (by decide : ¬ ((["dog", "cat", "bird", "dog", "bird", "cat",
    "dog"] : List String)) = [])]
  simp only [exList1, scoreLoop, List.map_cons, List.length_cons,
    List.length_nil, List.tail_cons, List.head?_cons, scoreOne_thedog,
    boostFactor]
  norm_num

/-- The specification's score for the middle sentence of the concrete
batch. -/
lemma spec_score_exList1 : spec_sentence_score exList1 "the dog" = 1 := by
  have hr : retainedWords "the dog" = ["dog"] := by decide
  have htbl : allRetainedWords exList1 =
      ["dog", "cat", "bird", "dog", "bird", "cat", "dog"] := by decide
  have hmax : maxCount ["dog", "cat", "bird", "dog", "bird", "cat", "dog"]
      = 3 := by decide
  have hcnt : (["dog", "cat", "bird", "dog", "bird", "cat",
      "dog"] : List String).count "dog" = 3 := by decide
  simp only [spec_sentence_score, hr, spec_norm_freq, htbl, hmax, hcnt,
    List.map_cons, List.map_nil]
  rw [if_neg (by decide : ¬ (["dog"] : List String) = [])]
  norm_num

/-- C1, counterexample: in the batch `["dog cat bird", "the dog",
"bird cat dog"]` the middle sentence (no positional boost applies to it)
gets code score 1/2 — the sum of normalized frequencies of its retained
words (1, for `dog`) divided by the count of ALL its alphabetic words
(2: `the` and `dog`) — while the claimed formula (divide by the count of
retained words) gives 1. -/
theorem claim1_counterexample :
    ((score_sentences exList1).map Scored.score).tail.head? ≠
      some (spec_sentence_score exList1 "the dog") := by
  rw [score_exList1_mid, spec_score_exList1]
  intro h
  have := Option.some.inj h
  norm_num at this

/-- C1 (amended): for every batch with a nonempty frequency table, the
pre-boost score of a sentence is 0 if it has no alphabetic words, and
otherwise the sum of the normalized frequencies of its retained words
divided by the count of ALL its alphabetic words (stop words and short
words contribute 0 to the numerator but still enlarge the denominator). -/
theorem claim1_theorem (sentences : List String) (s : String)
    (h : allRetainedWords sentences ≠ []) :
    scoreOne (allRetainedWords sentences)
        (maxCount (allRetainedWords sentences)) s =
      if findWords s = [] then 0
      else ((retainedWords s).map (spec_norm_freq sentences)).sum /
        ((findWords s).length : ℚ) := by
  unfold scoreOne
  by_cases hw : findWords s = []
  · simp [hw]
  · rw [if_neg hw, if_neg hw, sum_lookup_eq_sum_retained]
    rfl

/-- C1, witness: the amended formula evaluated on the concrete batch. -/
theorem claim1_witness :
    scoreOne (allRetainedWords exList1) (maxCount (allRetainedWords exList1))
        "the dog" =
      if findWords "the dog" = [] then 0
      else ((retainedWords "the dog").map (spec_norm_freq exList1)).sum /
        ((findWords "the dog").length : ℚ) :=
  claim1_theorem exList1 "the dog" (by decide)

/-- C2, counterexample: on `"Hi. This is a longer sentence."` with target 5
the splitter drops the short fragment `Hi.`, yet the returned summary is
the trimmed original text, which still contains `Hi.` — not the surviving
sentences rejoined. -/
theorem claim2_counterexample :
    extract_summary exText2 5 = "Hi. This is a longer sentence."
    ∧ split_sentences exText2 = ["This is a longer sentence."]
    ∧ extract_summary exText2 5 ≠
        intercalateStr " " (split_sentences exText2) := by decide

/-- C2 (amended): when the surviving sentence count is at most the target,
`extract_summary` returns `text.strip()` — the trimmed ORIGINAL text
(including any fragments the splitter discarded and the original inter-
sentence spacing), not the surviving sentences rejoined. -/
theorem claim2_theorem (text : String) (n : Int) (h1 : trimStr text ≠ "")
    (h2 : ((split_sentences text).length : Int) ≤ n) :
    extract_summary text n = trimStr text := by
  simp only [extract_summary, if_neg h1, if_pos h2]

/-- C2, witness. -/
theorem claim2_witness : extract_summary exText2 5 = trimStr exText2 :=
  claim2_theorem exText2 5 (by decide) (by decide)

/-- C3, counterexample: with `num_sentences = 0` (< 1) the engine raises no
input-validation error; it runs the full pipeline and produces a
`SummaryResult` (with computed key points), contradicting "reports an
invalid-argument error before any processing begins". -/
theorem claim3_counterexample :
    summarize_transcript exText3 0 =
      { summary := "",
        key_points :=
          ["This is a longer sentence with many interesting words"],
        action_items := [] } := by decide

/-- C3 (amended): `summarize_transcript` performs no validation of
`num_sentences`: every target < 1 is silently accepted and processed by the
normal pipeline (shown here on the direct path). -/
theorem claim3_theorem (text : String) (n : Int) (h1 : n < 1)
    (h2 : (split_sentences text).length ≤ 50) :
    summarize_transcript text n =
      { summary := extract_summary text n,
        key_points := extract_key_points text 7,
        action_items := extract_action_items text } := by
  by_cases h : trimStr text = ""
  · simp [summarize_transcript, extract_summary, extract_key_points,
      extract_action_items, h]
  · simp only [summarize_transcript, if_neg h,
      if_neg (Nat.not_lt.mpr h2)]

/-- C3, witness: a negative target is accepted and processed. -/
theorem claim3_witness :
    summarize_transcript exText3 (-1) =
      { summary := extract_summary exText3 (-1),
        key_points := extract_key_points exText3 7,
        action_items := extract_action_items exText3 } :=
  claim3_theorem exText3 (-1) (by decide) (by decide)

/-- Membership through stable insertion. -/
lemma mem_insStable (lt : Scored → Scored → Bool) (a x : Scored) :
    ∀ l, x ∈ insStable lt a l ↔ x = a ∨ x ∈ l := by
  intro l
  induction l with
  | nil => simp [insStable]
  | cons b bs ih =>
    rw [insStable]
    by_cases h : lt b a
    · rw [if_pos h]
      simp only [List.mem_cons, ih]
      tauto
    · rw [if_neg h]
      simp only [List.mem_cons]

/-- The stable sort does not change membership. -/
lemma mem_sortStable (lt : Scored → Scored → Bool) (x : Scored) :
    ∀ l, x ∈ sortStable lt l ↔ x ∈ l := by
  intro l
  induction l with
  | nil => simp [sortStable]
  | cons a as ih =>
    show x ∈ insStable lt a (sortStable lt as) ↔ _
    rw [mem_insStable]
    simp only [List.mem_cons, ih]

/-- A Python slice `l[:n]` is a sublist of `l`. -/
lemma pyTake_sublist (n : Int) (l : List Scored) :
    List.Sublist (pyTake n l) l := by
  unfold pyTake
  split
  · exact List.take_sublist _ _
  · exact List.take_sublist _ _

/-- Every element of the scoring loop carries its enumeration index and the
sentence at that index. -/
lemma scoreLoop_mem {tbl : List String} {mf len : ℕ} :
    ∀ (i : ℕ) (l : List String) (e : Scored),
      e ∈ scoreLoop tbl mf len i l →
        i ≤ e.idx ∧ l.get? (e.idx - i) = some e.text := by
  intro i l
  induction l generalizing i with
  | nil =>
    intro e h
    simp [scoreLoop] at h
  | cons s rest ih =>
    intro e h
    rw [scoreLoop] at h
    rcases List.mem_cons.mp h with rfl | h2
    · exact ⟨Nat.le_refl _, by simp⟩
    · obtain ⟨h3, h4⟩ := ih (i + 1) e h2
      refine ⟨Nat.le_of_succ_le h3, ?_⟩
      have hix : e.idx - i = (e.idx - (i + 1)) + 1 := by omega
      rw [hix, List.get?_cons_succ]
      exact h4

/-- Same for the zero-score early-return list. -/
lemma zeroLoop_mem :
    ∀ (i : ℕ) (l : List String) (e : Scored),
      e ∈ zeroLoop i l → i ≤ e.idx ∧ l.get? (e.idx - i) = some e.text := by
  intro i l
  induction l generalizing i with
  | nil =>
    intro e h
    simp [zeroLoop] at h
  | cons s rest ih =>
    intro e h
    rw [zeroLoop] at h
    rcases List.mem_cons.mp h with rfl | h2
    · exact ⟨Nat.le_refl _, by simp⟩
    · obtain ⟨h3, h4⟩ := ih (i + 1) e h2
      refine ⟨Nat.le_of_succ_le h3, ?_⟩
      have hix : e.idx - i = (e.idx - (i + 1)) + 1 := by omega
      rw [hix, List.get?_cons_succ]
      exact h4

/-- Every scored sentence's text is the input sentence at its index. -/
lemma score_sentences_mem {sentences : List String} {e : Scored}
    (h : e ∈ score_sentences sentences) :
    sentences.get? e.idx = some e.text := by
  simp only [score_sentences] at h
  split at h
  · have := (zeroLoop_mem 0 sentences e h).2
    simpa using this
  · have := (scoreLoop_mem 0 sentences e h).2
    simpa using this

/-- `dropWhile` is idempotent. -/
lemma dropWhile_idem (p : Char → Bool) :
    ∀ l : List Char, (l.dropWhile p).dropWhile p = l.dropWhile p := by
  intro l
  induction l with
  | nil => rfl
  | cons c cs ih =>
    by_cases h : p c
    · rw [List.dropWhile_cons_of_pos h, ih]
    · rw [List.dropWhile_cons_of_neg h, List.dropWhile_cons_of_neg h]

/-- `rstrip(".")` is idempotent: its result has no trailing period left. -/
lemma rstripDot_idem (s : String) : rstripDot (rstripDot s) = rstripDot s := by
  show String.mk _ = _
  rw [rstripDot]
  simp only [List.reverse_reverse]
  rw [dropWhile_idem]

/-- Every produced key point is some surviving sentence with ALL trailing
periods stripped, and has length over 15. -/
lemma mem_extract_key_points {text : String} {mp : Int} {p : String}
    (h : p ∈ extract_key_points text mp) :
    (∃ s ∈ split_sentences text, p = rstripDot s) ∧ 15 < p.length := by
  unfold extract_key_points at h
  by_cases h0 : trimStr text = ""
  · rw [if_pos h0] at h
    cases h
  · simp only [if_neg h0] at h
    by_cases h1 : split_sentences text = []
    · rw [if_pos h1] at h
      cases h
    · rw [if_neg h1] at h
      rcases List.mem_filterMap.mp h with ⟨t, ht, hf⟩
      by_cases hc : rstripDot t ≠ "" ∧ 15 < (rstripDot t).length
      · rw [if_pos hc] at hf
        obtain rfl := Option.some.inj hf
        rcases List.mem_map.mp ht with ⟨e, he, rfl⟩
        have hsc : e ∈ score_sentences (split_sentences text) := by
          have h3 := (mem_sortStable _ _ _).mp he
          have h4 := (pyTake_sublist mp _).subset h3
          exact (mem_sortStable _ _ _).mp h4
        exact ⟨⟨e.text, List.get?_mem (score_sentences_mem hsc), rfl⟩, hc.2⟩
      · rw [if_neg hc] at hf
        cases hf

/-- Every produced action item is some surviving sentence, trimmed, with
ALL trailing periods stripped, and has length over 15. -/
lemma mem_actionLoop {p : String} :
    ∀ (seen : List String) (l : List String), p ∈ actionLoop seen l →
      (∃ s ∈ l, p = rstripDot (trimStr s)) ∧ 15 < p.length := by
  intro seen l
  induction l generalizing seen with
  | nil =>
    intro h
    cases h
  | cons s rest ih =>
    intro h
    rw [actionLoop] at h
    cases hf : ACTION_PATTERNS.find? (fun q => patMatches q s) with
    | none =>
      rw [hf] at h
      obtain ⟨⟨t, htl, hpt⟩, hlen⟩ := ih seen h
      exact ⟨⟨t, List.mem_cons_of_mem s htl, hpt⟩, hlen⟩
    | some q =>
      rw [hf] at h
      by_cases hc :
          (!seen.contains (lowerStr (rstripDot (trimStr s)))
            && decide (15 < (rstripDot (trimStr s)).length)) = true
      · simp only [hc, if_true] at h
        rcases List.mem_cons.mp h with rfl | h2
        · refine ⟨⟨s, List.mem_cons_self s rest, rfl⟩, ?_⟩
          have := (Bool.and_eq_true _ _).mp hc
          exact of_decide_eq_true this.2
        · obtain ⟨⟨t, htl, hpt⟩, hlen⟩ := ih _ h2
          exact ⟨⟨t, List.mem_cons_of_mem s htl, hpt⟩, hlen⟩
      · simp only [hc, if_false] at h
        obtain ⟨⟨t, htl, hpt⟩, hlen⟩ := ih seen h
        exact ⟨⟨t, List.mem_cons_of_mem s htl, hpt⟩, hlen⟩

/-- C5, counterexample: the sentence ends in three periods, yet the produced
key point has ALL of them stripped (`rstrip(".")`), not just one: the claim
would require the output `"This is quite an important announcement.."`. -/
theorem claim5_counterexample :
    extract_key_points exText5 7 = ["This is quite an important announcement"]
    ∧ extract_key_points exText5 7 ≠
        ["This is quite an important announcement.."] := by decide

/-- C5 (amended): every produced key point and action item is a surviving
sentence (trimmed, for action items) with ALL trailing periods stripped
(`rstripDot p = p` says no trailing period remains), kept only when the
stripped length exceeds 15. -/
theorem claim5_theorem (text : String) (p : String) :
    (p ∈ extract_key_points text 7 →
      (∃ s ∈ split_sentences text, p = rstripDot s) ∧ 15 < p.length
        ∧ rstripDot p = p)
    ∧ (p ∈ extract_action_items text →
      (∃ s ∈ split_sentences text, p = rstripDot (trimStr s))
        ∧ 15 < p.length ∧ rstripDot p = p) := by
  constructor
  · intro h
    obtain ⟨⟨s, hs, rfl⟩, hlen⟩ := mem_extract_key_points h
    exact ⟨⟨s, hs, rfl⟩, hlen, rstripDot_idem s⟩
  · intro h
    unfold extract_action_items at h
    by_cases h0 : trimStr text = ""
    · rw [if_pos h0] at h
      cases h
    · rw [if_neg h0] at h
      obtain ⟨⟨s, hs, rfl⟩, hlen⟩ := mem_actionLoop [] (split_sentences text) h
      exact ⟨⟨s, hs, rfl⟩, hlen, rstripDot_idem (trimStr s)⟩

/-- C5, witness: both parts instantiated on concrete inputs — the ellipsis
key point and the specification's own action-item scenario. -/
theorem claim5_witness :
    ((∃ s ∈ split_sentences exText5,
        "This is quite an important announcement" = rstripDot s)
      ∧ 15 < ("This is quite an important announcement" : String).length
      ∧ rstripDot "This is quite an important announcement" =
          "This is quite an important announcement")
    ∧ ((∃ s ∈ split_sentences exText5b,
        "We need to finish the report by Friday" = rstripDot (trimStr s))
      ∧ 15 < ("We need to finish the report by Friday" : String).length
      ∧ rstripDot "We need to finish the report by Friday" =
          "We need to finish the report by Friday") :=
  ⟨(claim5_theorem exText5 "This is quite an important announcement").1
      (by decide),
   (claim5_theorem exText5b "We need to finish the report by Friday").2
      (by decide)⟩

/-- C10: with target 0 on a text of 1..50 surviving sentences the engine
raises nothing and returns an empty summary with normally computed key
points and action items (`[:0]` selects nothing; no clamping to 1). -/
theorem claim10_theorem (text : String)
    (h1 : 1 ≤ (split_sentences text).length)
    (h2 : (split_sentences text).length ≤ 50) :
    summarize_transcript text 0 =
      { summary := "",
        key_points := extract_key_points text 7,
        action_items := extract_action_items text } := by
  have hne : split_sentences text ≠ [] := by
    intro h
    rw [h] at h1
    simp at h1
  have htrim : trimStr text ≠ "" := trim_ne_of_split_ne text hne
  have hlt : ¬ 50 < (split_sentences text).length := Nat.not_lt.mpr h2
  simp only [summarize_transcript, if_neg htrim, if_neg hlt]
  have hlen : ¬ ((split_sentences text).length : Int) ≤ 0 := by
    have : (1 : Int) ≤ ((split_sentences text).length : Int) := by
      exact_mod_cast h1
    omega
  simp only [extract_summary, if_neg htrim, if_neg hlen, pyTake_zero]
  rfl

/-- C10, witness: on the concrete text the key points are moreover
non-empty. -/
theorem claim10_witness :
    summarize_transcript exText3 0 =
      { summary := "",
        key_points := extract_key_points exText3 7,
        action_items := extract_action_items exText3 }
    ∧ (summarize_transcript exText3 0).key_points ≠ [] :=
  ⟨claim10_theorem exText3 (by decide) (by decide), by decide⟩


/-- The action-item loop equals: keep the sentences matched by SOME pattern
(the first-match `break` contributes nothing beyond existence, since the
candidate is the sentence itself), strip, length-filter, then
case-insensitively deduplicate keeping the first occurrence.  The length
filter happens before the dedup, so a short candidate is neither kept nor
recorded as seen. -/
lemma actionLoop_eq_dedup :
    ∀ (l : List String) (seen : List String),
      actionLoop seen l =
        dedupCI seen
          (((l.filter
              (fun s => ACTION_PATTERNS.any (fun q => patMatches q s))).map
            (fun s => rstripDot (trimStr s))).filter
              (fun c => decide (15 < c.length))) := by
  intro l
  induction l with
  | nil => intro seen; rfl
  | cons s rest ih =>
    intro seen
    rw [actionLoop, List.filter_cons]
    cases hf : ACTION_PATTERNS.find? (fun q => patMatches q s) with
    | none =>
      have hany : (ACTION_PATTERNS.any fun q => patMatches q s) = false := by
        rw [List.any_eq_false]
        intro q hq
        have := List.find?_eq_none.mp hf q hq
        simpa using this
      simp only [hf, hany, Bool.false_eq_true, if_false]
      exact ih seen
    | some q =>
      have hq : patMatches q s = true := by
        have := List.find?_some hf
        simpa using this
      have hany : (ACTION_PATTERNS.any fun q => patMatches q s) = true := by
        rw [List.any_eq_true]
        exact ⟨q, List.mem_of_find?_eq_some hf, hq⟩
      simp only [hf, hany, if_true, List.map_cons, List.filter_cons]
      by_cases h15 : 15 < (rstripDot (trimStr s)).length
      · simp only [decide_eq_true h15, if_true]
        by_cases hseen :
            seen.contains (lowerStr (rstripDot (trimStr s))) = true
        · simp only [dedupCI, hseen, if_true, Bool.not_true,
            Bool.false_and, Bool.false_eq_true, if_false]
          exact ih seen
        · have hseen' :
              seen.contains (lowerStr (rstripDot (trimStr s))) = false :=
            Bool.not_eq_true _ ▸ (Bool.eq_false_iff.mpr hseen)
          simp only [dedupCI, hseen', Bool.not_false, Bool.true_and,
            decide_eq_true h15, Bool.false_eq_true, if_false, if_true]
          rw [ih (lowerStr (rstripDot (trimStr s)) :: seen)]
      · have h15' : decide (15 < (rstripDot (trimStr s)).length) = false :=
          decide_eq_false h15
        simp only [h15', Bool.and_false, Bool.false_eq_true, if_false]
        exact ih seen

/-- No produced item's lowercase form was already in `seen`. -/
lemma actionLoop_lower_notin :
    ∀ (l seen : List String) (a : String), a ∈ actionLoop seen l →
      seen.contains (lowerStr a) = false := by
  intro l
  induction l with
  | nil =>
    intro seen a h
    cases h
  | cons s rest ih =>
    intro seen a h
    rw [actionLoop] at h
    cases hf : ACTION_PATTERNS.find? (fun q => patMatches q s) with
    | none =>
      simp only [hf] at h
      exact ih seen a h
    | some q =>
      simp only [hf] at h
      by_cases hc :
          (!seen.contains (lowerStr (rstripDot (trimStr s)))
            && decide (15 < (rstripDot (trimStr s)).length)) = true
      · rw [if_pos hc] at h
        rcases List.mem_cons.mp h with rfl | h2
        · have := (Bool.and_eq_true _ _).mp hc
          simpa using this.1
        · have := ih _ a h2
          rw [List.contains_cons] at this
          exact (Bool.or_eq_false_iff.mp this).2
      · rw [if_neg hc] at h
        exact ih seen a h

/-- The produced action items are pairwise distinct case-insensitively. -/
lemma actionLoop_pairwise :
    ∀ (l seen : List String),
      (actionLoop seen l).Pairwise (fun a b => lowerStr a ≠ lowerStr b) := by
  intro l
  induction l with
  | nil => intro seen; exact List.Pairwise.nil
  | cons s rest ih =>
    intro seen
    rw [actionLoop]
    cases hf : ACTION_PATTERNS.find? (fun q => patMatches q s) with
    | none =>
      simp only [hf]
      exact ih seen
    | some q =>
      simp only [hf]
      by_cases hc :
          (!seen.contains (lowerStr (rstripDot (trimStr s)))
            && decide (15 < (rstripDot (trimStr s)).length)) = true
      · rw [if_pos hc]
        refine List.Pairwise.cons ?_ (ih _)
        intro b hb
        have := actionLoop_lower_notin rest _ b hb
        rw [List.contains_cons] at this
        have h1 := (Bool.or_eq_false_iff.mp this).1
        intro hcontra
        rw [hcontra] at h1
        simp at h1
      · rw [if_neg hc]
        exact ih seen

/-- C6: the action-item extractor equals the declarative description — keep
each sentence matched by SOME pattern (at most one candidate per sentence,
whichever pattern fires first), strip all trailing periods, drop candidates
of length ≤ 15 BEFORE deduplication (so they are never recorded as seen),
then deduplicate case-insensitively keeping the first occurrence;
consequently the output is pairwise distinct up to case. -/
theorem claim6_theorem (text : String) :
    extract_action_items text =
      dedupCI []
        ((((split_sentences text).filter
            (fun s => ACTION_PATTERNS.any (fun q => patMatches q s))).map
          (fun s => rstripDot (trimStr s))).filter
            (fun c => decide (15 < c.length)))
    ∧ (extract_action_items text).Pairwise
        (fun a b => lowerStr a ≠ lowerStr b) := by
  constructor
  · unfold extract_action_items
    by_cases h0 : trimStr text = ""
    · rw [if_pos h0, split_of_trim_empty text h0]
      rfl
    · rw [if_neg h0]
      exact actionLoop_eq_dedup (split_sentences text) []
  · unfold extract_action_items
    by_cases h0 : trimStr text = ""
    · rw [if_pos h0]
      exact List.Pairwise.nil
    · rw [if_neg h0]
      exact actionLoop_pairwise (split_sentences text) []

/-- A nonempty table has a positive maximum count. -/
lemma maxCount_pos {tbl : List String} (h : tbl ≠ []) : 0 < maxCount tbl := by
  cases tbl with
  | nil => exact absurd rfl h
  | cons w rest =>
    have hw : 0 < (w :: rest).count w :=
      List.count_pos_iff.mpr (List.mem_cons_self w rest)
    unfold maxCount
    rw [List.map_cons, List.foldr_cons]
    exact lt_of_lt_of_le hw (le_max_left _ _)

/-- The checked per-sentence score always succeeds. -/
lemma scoreOneChecked_eq (tbl : List String) (mf : ℕ) (s : String) :
    scoreOneChecked tbl mf s = some (scoreOne tbl mf s) := by
  unfold scoreOneChecked scoreOne cdiv
  by_cases hw : findWords s = []
  · simp [hw]
  · have hlen : ((findWords s).length : ℚ) ≠ 0 := by
      have : (findWords s).length ≠ 0 :=
        fun hc => hw (List.length_eq_zero.mp hc)
      exact_mod_cast this
    simp [hw, hlen]

/-- The checked scoring loop always succeeds. -/
lemma scoreLoopChecked_eq (tbl : List String) (mf len : ℕ) :
    ∀ (i : ℕ) (l : List String),
      scoreLoopChecked tbl mf len i l = some (scoreLoop tbl mf len i l) := by
  intro i l
  induction l generalizing i with
  | nil => rfl
  | cons s rest ih =>
    rw [scoreLoopChecked, scoreLoop, scoreOneChecked_eq, ih]
    rfl

/-- C9: the scoring pass, with every partial Python operation modelled
explicitly (`max` on an empty sequence, and both division sites), always
succeeds and computes the total model: the `if not word_freq` and
`if not words` guards keep every divisor nonzero.  All remaining operations
of the pipeline (splitting, sorting, slicing, joining, pattern search) are
built from total primitives. -/
theorem claim9_theorem (sentences : List String) :
    score_sentencesChecked sentences = some (score_sentences sentences) := by
  unfold score_sentencesChecked score_sentences
  by_cases ht : allRetainedWords sentences = []
  · simp [ht]
  · have hmap : (allRetainedWords sentences).map
        (fun w => (allRetainedWords sentences).count w) ≠ [] := by
      simpa using ht
    have hpos := maxCount_pos ht
    have hne : ((maxCount (allRetainedWords sentences)) : ℚ) ≠ 0 := by
      have : maxCount (allRetainedWords sentences) ≠ 0 := Nat.pos_iff_ne_zero.mp hpos
      exact_mod_cast this
    simp only [if_neg ht, cmax, if_neg hmap]
    show (if ((maxCount (allRetainedWords sentences) : ℚ)) = 0 then none
      else scoreLoopChecked _ _ _ 0 sentences) = _
    rw [if_neg hne, scoreLoopChecked_eq]
    rfl

/-- `chunk20` yields no segment exactly on empty input. -/
lemma chunk20_eq_nil_iff (l : List String) : chunk20 l = [] ↔ l = [] := by
  cases l with
  | nil => simp [chunk20, chunk20F]
  | cons s rest =>
    rw [chunk20_cons]
    simp

/-- The segments concatenate back to the whole sentence sequence
(contiguous, non-overlapping, in order). -/
lemma chunk20_flatten_aux :
    ∀ (N : ℕ) (l : List String), l.length ≤ N →
      (chunk20 l).flatten = l := by
  intro N
  induction N with
  | zero =>
    intro l h
    have : l = [] := List.length_eq_zero.mp (Nat.le_zero.mp h)
    subst this
    rfl
  | succ N ih =>
    intro l h
    cases l with
    | nil => rfl
    | cons s rest =>
      rw [chunk20_cons, List.flatten_cons,
        ih ((s :: rest).drop 20) (by
          simp only [List.length_drop, List.length_cons]
          simp only [List.length_cons] at h
          omega),
        List.take_append_drop]

/-- Every segment is nonempty and holds at most 20 sentences. -/
lemma chunk20_mem_bounds :
    ∀ (N : ℕ) (l c : List String), l.length ≤ N → c ∈ chunk20 l →
      c ≠ [] ∧ c.length ≤ 20 := by
  intro N
  induction N with
  | zero =>
    intro l c h hc
    have : l = [] := List.length_eq_zero.mp (Nat.le_zero.mp h)
    subst this
    cases hc
  | succ N ih =>
    intro l c h hc
    cases l with
    | nil => cases hc
    | cons s rest =>
      rw [chunk20_cons] at hc
      rcases List.mem_cons.mp hc with rfl | h2
      · constructor
        · simp
        · rw [List.length_take]
          exact min_le_left _ _
      · exact ih ((s :: rest).drop 20) c (by
          simp only [List.length_drop, List.length_cons]
          simp only [List.length_cons] at h
          omega) h2

/-- Every segment except possibly the last holds exactly 20 sentences. -/
lemma chunk20_dropLast_len :
    ∀ (N : ℕ) (l c : List String), l.length ≤ N →
      c ∈ (chunk20 l).dropLast → c.length = 20 := by
  intro N
  induction N with
  | zero =>
    intro l c h hc
    have : l = [] := List.length_eq_zero.mp (Nat.le_zero.mp h)
    subst this
    cases hc
  | succ N ih =>
    intro l c h hc
    cases l with
    | nil => cases hc
    | cons s rest =>
      rw [chunk20_cons] at hc
      cases hC : chunk20 ((s :: rest).drop 20) with
      | nil =>
        rw [hC] at hc
        cases hc
      | cons c0 C =>
        rw [hC, List.dropLast_cons₂] at hc
        rcases List.mem_cons.mp hc with rfl | h2
        · have hdrop : (s :: rest).drop 20 ≠ [] := by
            intro hd
            rw [(chunk20_eq_nil_iff _).mpr hd] at hC
            cases hC
          have h20 : 20 < (s :: rest).length := by
            by_contra hcon
            exact hdrop (List.drop_eq_nil_of_le (Nat.not_lt.mp hcon))
          rw [List.length_take]
          omega
        · rw [← hC] at h2
          exact ih ((s :: rest).drop 20) c (by
            simp only [List.length_drop, List.length_cons]
            simp only [List.length_cons] at h
            omega) h2

/-- The direct (≤ 50 sentences) branch of `summarize_transcript`. -/
lemma summarize_direct (text : String) (n : Int)
    (h : (split_sentences text).length ≤ 50) :
    summarize_transcript text n =
      { summary := extract_summary text n,
        key_points := extract_key_points text 7,
        action_items := extract_action_items text } := by
  by_cases h0 : trimStr text = ""
  · simp [summarize_transcript, extract_summary, extract_key_points,
      extract_action_items, h0]
  · simp only [summarize_transcript, if_neg h0, if_neg (Nat.not_lt.mpr h)]

/-- The map-reduce (> 50 sentences) branch of `summarize_transcript`. -/
lemma summarize_mapreduce (text : String) (n : Int)
    (h : 50 < (split_sentences text).length) :
    summarize_transcript text n =
      map_reduce_summarize text (split_sentences text) n := by
  have hne : split_sentences text ≠ [] := by
    intro hh
    rw [hh] at h
    simp at h
  have htrim := trim_ne_of_split_ne text hne
  simp only [summarize_transcript, if_neg htrim, if_pos h]

/-- The fields of the map-reduce result, stated over a generic sentence
list. -/
lemma map_reduce_fields (t : String) (ss : List String) (m : Int) :
    (map_reduce_summarize t ss m).action_items = extract_action_items t
    ∧ (map_reduce_summarize t ss m).key_points =
        extract_key_points (combinedOf ss) 7 :=
  ⟨rfl, rfl⟩

/-- C7: the direct path runs exactly when the surviving sentence count is
≤ 50 and map-reduce exactly when it exceeds 50; the map-reduce segments
are contiguous non-overlapping slices of at most 20 sentences (all but the
last exactly 20, flattening back to the input), and each segment summary is
the space-rejoined segment summarized with fixed target 3. -/
theorem claim7_theorem (text : String) (n : Int) :
    ((split_sentences text).length ≤ 50 →
      summarize_transcript text n =
        { summary := extract_summary text n,
          key_points := extract_key_points text 7,
          action_items := extract_action_items text })
    ∧ (50 < (split_sentences text).length →
      summarize_transcript text n =
        map_reduce_summarize text (split_sentences text) n)
    ∧ (chunk20 (split_sentences text)).flatten = split_sentences text
    ∧ (∀ c ∈ chunk20 (split_sentences text), c ≠ [] ∧ c.length ≤ 20)
    ∧ (∀ c ∈ (chunk20 (split_sentences text)).dropLast, c.length = 20)
    ∧ segmentSummaries (split_sentences text) =
        (chunk20 (split_sentences text)).map
          (fun seg => extract_summary (intercalateStr " " seg) 3) :=
  ⟨fun h => summarize_direct text n h,
   fun h => summarize_mapreduce text n h,
   chunk20_flatten_aux _ _ (Nat.le_refl _),
   fun c hc => chunk20_mem_bounds _ _ c (Nat.le_refl _) hc,
   fun c hc => chunk20_dropLast_len _ _ c (Nat.le_refl _) hc,
   by unfold segmentSummaries segmentsOf; rw [List.map_map]; rfl⟩

set_option maxHeartbeats 4000000 in
/-- C7, witness: a 2-sentence text takes the direct path, the 51-sentence
text takes map-reduce, and its first segment is a nonempty slice of at most
20 sentences. -/
theorem claim7_witness :
    summarize_transcript smallText 2 =
      { summary := extract_summary smallText 2,
        key_points := extract_key_points smallText 7,
        action_items := extract_action_items smallText }
    ∧ summarize_transcript bigText 5 =
        map_reduce_summarize bigText (split_sentences bigText) 5
    ∧ ((split_sentences bigText).take 20 ≠ []
        ∧ ((split_sentences bigText).take 20).length ≤ 20) :=
  ⟨(claim7_theorem smallText 2).1 (by decide),
   (claim7_theorem bigText 5).2.1 (by decide),
   (claim7_theorem bigText 5).2.2.2.1 _ (by decide)⟩

/-- C8: on the map-reduce path the action items come from the original full
text (the same `extract_action_items` the direct path uses) while the key
points come from the combined segment summaries. -/
theorem claim8_theorem (text : String) (n : Int)
    (h : 50 < (split_sentences text).length) :
    (summarize_transcript text n).action_items = extract_action_items text
    ∧ (summarize_transcript text n).key_points =
        extract_key_points (combinedOf (split_sentences text)) 7 := by
  rw [summarize_mapreduce text n h]
  exact map_reduce_fields text (split_sentences text) n

set_option maxHeartbeats 4000000 in
/-- C8, witness. -/
theorem claim8_witness :
    (summarize_transcript bigText 5).action_items =
        extract_action_items bigText
    ∧ (summarize_transcript bigText 5).key_points =
        extract_key_points (combinedOf (split_sentences bigText)) 7 :=
  claim8_theorem bigText 5 (by decide)

/-- A slice of the empty list is empty. -/
lemma pyTake_nil {α : Type} (n : Int) : pyTake n ([] : List α) = [] := by
  unfold pyTake
  split <;> exact List.take_nil

/-- Stable insertion permutes. -/
lemma perm_insStable (lt : Scored → Scored → Bool) (a : Scored) :
    ∀ l, List.Perm (insStable lt a l) (a :: l) := by
  intro l
  induction l with
  | nil => exact List.Perm.refl _
  | cons b bs ih =>
    rw [insStable]
    by_cases h : lt b a
    · rw [if_pos h]
      exact (ih.cons b).trans (List.Perm.swap a b bs)
    · simp only [if_neg h]
      exact List.Perm.refl _

/-- The stable sort is a permutation. -/
lemma perm_sortStable (lt : Scored → Scored → Bool) :
    ∀ l, List.Perm (sortStable lt l) l := by
  intro l
  induction l with
  | nil => exact List.Perm.refl _
  | cons a as ih =>
    show List.Perm (insStable lt a (sortStable lt as)) _
    exact (perm_insStable lt a _).trans (ih.cons a)

/-- Two insertion orders that agree on the inserted element against every
list element insert identically. -/
lemma insStable_congrOn (lt1 lt2 : Scored → Scored → Bool) (a : Scored) :
    ∀ l, (∀ b ∈ l, lt1 b a = lt2 b a) →
      insStable lt1 a l = insStable lt2 a l := by
  intro l
  induction l with
  | nil => intro _; rfl
  | cons b bs ih =>
    intro h
    rw [insStable, insStable, h b (List.mem_cons_self b bs)]
    by_cases h2 : lt2 b a
    · rw [if_pos h2, if_pos h2,
        ih (fun c hc => h c (List.mem_cons_of_mem b hc))]
    · rw [if_neg h2, if_neg h2]

/-- On a list with strictly increasing indices, the stable descending sort
by score alone (Python's `sorted(key=score, reverse=True)`) equals the sort
by the specification's order: score descending with ties broken by lower
index.  Stability is exactly what turns the implicit tie-break into
"earlier sentence wins". -/
lemma sortStable_score_eq_lex :
    ∀ l : List Scored, l.Pairwise (fun x y => x.idx < y.idx) →
      sortStable ltScore l = sortStable ltLex l := by
  intro l
  induction l with
  | nil => intro _; rfl
  | cons a as ih =>
    intro h
    rcases List.pairwise_cons.mp h with ⟨ha, has⟩
    show insStable ltScore a (sortStable ltScore as) =
      insStable ltLex a (sortStable ltLex as)
    rw [ih has]
    apply insStable_congrOn
    intro b hb
    have hidx : a.idx < b.idx := ha b ((mem_sortStable _ _ _).mp hb)
    unfold ltScore ltLex
    have hd : decide (b.idx < a.idx) = false := decide_eq_false (by omega)
    rw [hd, Bool.and_false, Bool.or_false]

/-- The scoring loop emits strictly increasing indices. -/
lemma scoreLoop_pairwise (tbl : List String) (mf len : ℕ) :
    ∀ (i : ℕ) (l : List String),
      (scoreLoop tbl mf len i l).Pairwise (fun x y => x.idx < y.idx) := by
  intro i l
  induction l generalizing i with
  | nil => exact List.Pairwise.nil
  | cons s rest ih =>
    rw [scoreLoop]
    refine List.pairwise_cons.mpr ⟨?_, ih (i + 1)⟩
    intro b hb
    have h1 := (scoreLoop_mem (i + 1) rest b hb).1
    show i < b.idx
    omega

/-- The zero-score list also has strictly increasing indices. -/
lemma zeroLoop_pairwise :
    ∀ (i : ℕ) (l : List String),
      (zeroLoop i l).Pairwise (fun x y => x.idx < y.idx) := by
  intro i l
  induction l generalizing i with
  | nil => exact List.Pairwise.nil
  | cons s rest ih =>
    rw [zeroLoop]
    refine List.pairwise_cons.mpr ⟨?_, ih (i + 1)⟩
    intro b hb
    have h1 := (zeroLoop_mem (i + 1) rest b hb).1
    show i < b.idx
    omega

/-- `_score_sentences` emits strictly increasing indices. -/
lemma score_sentences_pairwise (sentences : List String) :
    (score_sentences sentences).Pairwise (fun x y => x.idx < y.idx) := by
  simp only [score_sentences]
  split
  · exact zeroLoop_pairwise 0 sentences
  · exact scoreLoop_pairwise _ _ _ 0 sentences

/-- A selected element comes from the scored list. -/
lemma sel_mem {scored : List Scored} {n : Int} {e : Scored}
    (h : e ∈ sortStable ltIdx (pyTake n (sortStable ltLex scored))) :
    e ∈ scored :=
  (mem_sortStable _ _ _).mp
    ((pyTake_sublist n _).subset ((mem_sortStable _ _ _).mp h))

/-- Inserting under the index order preserves index-sortedness. -/
lemma pairwise_insStable_le (a : Scored) (l : List Scored)
    (h : l.Pairwise (fun x y => x.idx ≤ y.idx)) :
    (insStable ltIdx a l).Pairwise (fun x y => x.idx ≤ y.idx) := by
  induction l with
  | nil => exact List.pairwise_cons.mpr ⟨fun y hy => absurd hy (by simp), .nil⟩
  | cons b bs ih =>
    rw [insStable]
    rcases List.pairwise_cons.mp h with ⟨hb, hbs⟩
    by_cases hlt : ltIdx b a
    · rw [if_pos hlt]
      refine List.pairwise_cons.mpr ⟨?_, ih hbs⟩
      intro y hy
      rcases (mem_insStable _ _ _ _).mp hy with rfl | hy2
      · exact Nat.le_of_lt (of_decide_eq_true hlt)
      · exact hb y hy2
    · rw [if_neg hlt]
      have hab : a.idx ≤ b.idx := by
        have : ¬ b.idx < a.idx := fun hc => hlt (decide_eq_true hc)
        omega
      refine List.pairwise_cons.mpr ⟨?_, h⟩
      intro y hy
      rcases List.mem_cons.mp hy with rfl | hy2
      · exact hab
      · exact Nat.le_trans hab (hb y hy2)

/-- The final re-sort orders the selection by ascending index. -/
lemma pairwise_sortStable_ltIdx (l : List Scored) :
    (sortStable ltIdx l).Pairwise (fun x y => x.idx ≤ y.idx) := by
  induction l with
  | nil => exact List.Pairwise.nil
  | cons a as ih => exact pairwise_insStable_le a _ ih

/-- The selected subset, re-sorted by index, has strictly increasing
indices (indices are pairwise distinct, inherited from the scored list
through the sort permutations and the slice). -/
lemma sel_pairwise {scored : List Scored} (n : Int)
    (hpw : scored.Pairwise (fun x y => x.idx < y.idx)) :
    (sortStable ltIdx (pyTake n (sortStable ltLex scored))).Pairwise
      (fun x y => x.idx < y.idx) := by
  have hnd : ((sortStable ltIdx
      (pyTake n (sortStable ltLex scored))).map Scored.idx).Nodup := by
    have h0 : (scored.map Scored.idx).Nodup := by
      have := hpw.map Scored.idx
        (fun hab => hab : ∀ {a b : Scored}, a.idx < b.idx →
          Scored.idx a < Scored.idx b)
      exact this.imp Nat.ne_of_lt
    have h1 : ((sortStable ltLex scored).map Scored.idx).Nodup :=
      (((perm_sortStable ltLex scored).map Scored.idx).nodup_iff).mpr h0
    have h2 : ((pyTake n (sortStable ltLex scored)).map Scored.idx).Nodup :=
      ((pyTake_sublist n _).map Scored.idx).nodup h1
    exact (((perm_sortStable ltIdx _).map Scored.idx).nodup_iff).mpr h2
  have hle := pairwise_sortStable_ltIdx (pyTake n (sortStable ltLex scored))
  have hne : (sortStable ltIdx (pyTake n (sortStable ltLex scored))).Pairwise
      (fun x y => x.idx ≠ y.idx) := (List.pairwise_map).mp hnd
  exact (hle.and hne).imp (fun hab => Nat.lt_of_le_of_ne hab.1 hab.2)

/-- C4: when more sentences survive than the target, the summary is the
top-`n` under score-descending order with ties broken by lower index
(the stable sort's behaviour), re-sorted by ascending index and joined by
single spaces; the selected sentences carry strictly increasing indices
(original relative order) and each one's text is exactly the input sentence
at its index (never altered). -/
theorem claim4_theorem (text : String) (n : Int)
    (h : n < ((split_sentences text).length : Int)) :
    extract_summary text n =
      intercalateStr " "
        ((sortStable ltIdx (pyTake n (sortStable ltLex
          (score_sentences (split_sentences text))))).map Scored.text)
    ∧ (sortStable ltIdx (pyTake n (sortStable ltLex
        (score_sentences (split_sentences text))))).Pairwise
          (fun x y => x.idx < y.idx)
    ∧ ∀ e ∈ sortStable ltIdx (pyTake n (sortStable ltLex
        (score_sentences (split_sentences text)))),
        (split_sentences text).get? e.idx = some e.text := by
  refine ⟨?_, sel_pairwise n (score_sentences_pairwise _),
    fun e he => score_sentences_mem (sel_mem he)⟩
  by_cases h0 : trimStr text = ""
  · rw [split_of_trim_empty text h0]
    simp only [extract_summary, if_pos h0]
    rw [show score_sentences [] = [] from rfl,
      show sortStable ltLex [] = [] from rfl, pyTake_nil]
    rfl
  · have hlen : ¬ ((split_sentences text).length : Int) ≤ n := by omega
    simp only [extract_summary, if_neg h0, if_neg hlen]
    rw [sortStable_score_eq_lex _ (score_sentences_pairwise _)]

/-- C4, witness: the two-sentence text with target 1. -/
theorem claim4_witness :
    extract_summary smallText 1 =
      intercalateStr " "
        ((sortStable ltIdx (pyTake 1 (sortStable ltLex
          (score_sentences (split_sentences smallText))))).map Scored.text)
    ∧ (sortStable ltIdx (pyTake 1 (sortStable ltLex
        (score_sentences (split_sentences smallText))))).Pairwise
          (fun x y => x.idx < y.idx)
    ∧ ∀ e ∈ sortStable ltIdx (pyTake 1 (sortStable ltLex
        (score_sentences (split_sentences smallText)))),
        (split_sentences smallText).get? e.idx = some e.text :=
  claim4_theorem smallText 1 (by decide)
